import Mathlib

/-!
Verification of the f3brew stamp/verify engine (src/f3brew.c).

The engine stamps every 512-byte sector with its own absolute byte offset
followed by a chain of pseudo-random 64-bit words, and later re-reads and
classifies each sector.  All quantities are C `uint64_t` values, modelled as
natural numbers reduced modulo 2^64 wherever the C code stores or computes a
64-bit value.  Sectors are modelled at 8-byte-word granularity (a list of 64
words) because both the writer (`fill_buffer`) and the validator
(`validate_sector`) access the buffer exclusively through aligned 64-bit
loads and stores.

The pseudo-random chain function `random_number` lives outside the given
sources (libutils); the design treats it as an injected deterministic
function, so every definition below is parameterised by an arbitrary
`rnd : Nat → Nat` whose result is truncated to 64 bits, exactly as a C
function returning `uint64_t` would be.
-/

/-- 2^64, the modulus of C `uint64_t` arithmetic. -/
def U64 : Nat := 2 ^ 64

theorem U64_pos : 0 < U64 := by unfold U64; positivity

/-- SECTOR_SIZE from the C sources: the fixed 512-byte sector. -/
def SECTOR_SIZE : Nat := 512

/-- TOLERANCE from f3brew.c: mismatching words still counted as "the same
chain, lightly corrupted". -/
def TOLERANCE : Nat := 2

/-- Number of chained pseudo-random words in one sector:
(SECTOR_SIZE - sizeof(offset)) / sizeof(rn) = (512 - 8) / 8 = 63. -/
def CHAIN_WORDS : Nat := (SECTOR_SIZE - 8) / 8

/-- One step `rn = random_number(rn)` of the chain, truncated to 64 bits as
the C `uint64_t` return value is. -/
def next_rand (rnd : Nat → Nat) (w : Nat) : Nat := rnd w % U64

/-- The chain of `n` pseudo-random words seeded from `w`, in the order
`fill_buffer` stores them into a sector. -/
def chain_words (rnd : Nat → Nat) (w : Nat) : Nat → List Nat
  | 0 => []
  | n + 1 => next_rand rnd w :: chain_words rnd (next_rand rnd w) n

/-- One sector as `fill_buffer` produces it: the sector's own absolute byte
offset (a stored `uint64_t`) followed by the 63-word chain seeded from it. -/
def fill_sector (rnd : Nat → Nat) (offset : Nat) : List Nat :=
  offset % U64 :: chain_words rnd (offset % U64) CHAIN_WORDS

/-- fill_buffer from f3brew.c over `nsec` consecutive sectors: fills each
sector with its stamp, advancing the running offset by SECTOR_SIZE (in
`uint64_t` arithmetic) per sector, and returns the buffer together with the
offset just past it. -/
def fill_buffer (rnd : Nat → Nat) (nsec : Nat) (offset : Nat) :
    List (List Nat) × Nat :=
  match nsec with
  | 0 => ([], offset)
  | n + 1 =>
    let r := fill_buffer rnd n ((offset + SECTOR_SIZE) % U64)
    (fill_sector rnd offset :: r.1, r.2)

/-- Reference count of ALL words of `ws` that differ from the chain seeded at
`w` (no early exit); the specification's notion of the mismatch count. -/
def count_mismatches (rnd : Nat → Nat) (w : Nat) : List Nat → Nat
  | [] => 0
  | x :: rest =>
    (if next_rand rnd w = x then 0 else 1) +
      count_mismatches rnd (next_rand rnd w) rest

/-- The error-counting loop of validate_sector: compares the re-derived chain
word by word with the sector's remaining words, stopping once the count
exceeds TOLERANCE (`for (; error_count <= TOLERANCE && p < ptr_end; ...)`). -/
def chain_errors (rnd : Nat → Nat) (w ec : Nat) : List Nat → Nat
  | [] => ec
  | x :: rest =>
    if TOLERANCE < ec then ec
    else
      chain_errors rnd (next_rand rnd w)
        (if next_rand rnd w = x then ec else ec + 1) rest

/-- The six sector classifications of validate_sector's diagnosis matrix. -/
inductive Diag where
  | Good
  | Changed
  | BadMatching
  | Overwritten
  | OverwrittenChanged
  | Bad
deriving DecidableEq

/-- The diagnostic line validate_sector prints for each classification: the
Good and Bad printf calls are commented out in the C source, so those two
classes emit nothing. -/
def emitted : Diag → Option String
  | Diag.Good => none
  | Diag.Changed => some ("Changed")
  | Diag.BadMatching => some ("BAD matching")
  | Diag.Overwritten => some ("Overwritten")
  | Diag.OverwrittenChanged => some ("Overwritten and changed")
  | Diag.Bad => none

/-- The first 8 bytes of a sector read back as a `uint64_t`:
`sector_offset = *((uint64_t *) sector)`. -/
def found_offset (sector : List Nat) : Nat := sector.headD 0

/-- validate_sector from f3brew.c: reads the found offset from the sector's
first word, re-derives the chain seeded from that found offset, counts
mismatches with early exit, and classifies by the (offset match, error
count) pair. -/
def validate_sector (rnd : Nat → Nat) (expected_sector_offset : Nat)
    (sector : List Nat) : Diag :=
  let sector_offset := sector.headD 0
  let error_count := chain_errors rnd sector_offset 0 sector.tail
  if sector_offset = expected_sector_offset then
    if error_count = 0 then Diag.Good
    else if error_count ≤ TOLERANCE then Diag.Changed
    else Diag.BadMatching
  else if error_count = 0 then Diag.Overwritten
  else if error_count ≤ TOLERANCE then Diag.OverwrittenChanged
  else Diag.Bad

/-- The specification's diagnosis matrix: rows = whether the found offset
equals the expected one, columns = mismatch count bucketed as 0,
1..TOLERANCE, > TOLERANCE. -/
def classify_matrix (same : Bool) (m : Nat) : Diag :=
  if same then
    if m = 0 then Diag.Good
    else if m ≤ TOLERANCE then Diag.Changed
    else Diag.BadMatching
  else
    if m = 0 then Diag.Overwritten
    else if m ≤ TOLERANCE then Diag.OverwrittenChanged
    else Diag.Bad

/-- Reference validator, modelled from the spec's words ("counts mismatching
words between the re-derived chain and the actual remaining bytes"): same
classification, but over the full mismatch count with no early exit. -/
def validate_sector_full (rnd : Nat → Nat) (expected_sector_offset : Nat)
    (sector : List Nat) : Diag :=
  classify_matrix (sector.headD 0 == expected_sector_offset)
    (count_mismatches rnd (sector.headD 0) sector.tail)

/-- The mismatch-count bucket of a classification: 0, 1 (= 1..TOLERANCE) or
2 (= beyond TOLERANCE). -/
def diag_bucket : Diag → Nat
  | Diag.Good => 0
  | Diag.Overwritten => 0
  | Diag.Changed => 1
  | Diag.OverwrittenChanged => 1
  | Diag.BadMatching => 2
  | Diag.Bad => 2

/-- The bucket of a raw mismatch count. -/
def bucket_of (m : Nat) : Nat :=
  if m = 0 then 0 else if m ≤ TOLERANCE then 1 else 2

/-- The error count of a sector as validate_sector computes it, seeded from
the offset found in the sector itself. -/
def sector_error_count (rnd : Nat → Nat) (sector : List Nat) : Nat :=
  chain_errors rnd (found_offset sector) 0 sector.tail

theorem chain_errors_at_three (rnd : Nat → Nat) :
    ∀ (ws : List Nat) (w : Nat), chain_errors rnd w 3 ws = 3 := by
  intro ws w
  cases ws with
  | nil => rfl
  | cons x rest => simp [chain_errors, TOLERANCE]

theorem chain_errors_eq_min (rnd : Nat → Nat) :
    ∀ (ws : List Nat) (w ec : Nat), ec ≤ 3 →
      chain_errors rnd w ec ws = min (ec + count_mismatches rnd w ws) 3 := by
  intro ws
  induction ws with
  | nil =>
    intro w ec h
    simp only [chain_errors, count_mismatches]
    omega
  | cons x rest ih =>
    intro w ec h
    by_cases hec : TOLERANCE < ec
    · have he3 : ec = 3 := by
        simp only [TOLERANCE] at hec
        omega
      subst he3
      rw [chain_errors_at_three]
      omega
    · by_cases hx : next_rand rnd w = x
      · simp only [chain_errors, if_neg hec, if_pos hx, count_mismatches]
        rw [ih _ ec h]
        omega
      · simp only [chain_errors, if_neg hec, if_neg hx, count_mismatches]
        have hec2 : ec + 1 ≤ 3 := by
          simp only [TOLERANCE] at hec
          omega
        rw [ih _ (ec + 1) hec2]
        omega

/-- Claim C1: validate_sector classifies every sector by the diagnosis
matrix over (found offset = expected offset) and the mismatch-count bucket
(0, 1..2, more than 2); Good and Bad emit no diagnostic, the other four
classes emit their lines, and a found-offset-matching sector with exactly
TOLERANCE = 2 corrupted words is Changed while TOLERANCE + 1 = 3 corrupted
words make it BAD matching. -/
theorem brew_C1 (rnd : Nat → Nat) (e off : Nat) (ws : List Nat) :
    validate_sector rnd e (off :: ws) =
      classify_matrix (off == e) (count_mismatches rnd off ws) ∧
    emitted Diag.Good = none ∧
    emitted Diag.Changed = some ("Changed") ∧
    emitted Diag.BadMatching = some ("BAD matching") ∧
    emitted Diag.Overwritten = some ("Overwritten") ∧
    emitted Diag.OverwrittenChanged = some ("Overwritten and changed") ∧
    emitted Diag.Bad = none ∧
    classify_matrix true TOLERANCE = Diag.Changed ∧
    classify_matrix true (TOLERANCE + 1) = Diag.BadMatching := by
  refine ⟨?_, rfl, rfl, rfl, rfl, rfl, rfl, by simp [classify_matrix, TOLERANCE],
    by simp [classify_matrix, TOLERANCE]⟩
  have h := chain_errors_eq_min rnd ws off 0 (by omega)
  simp only [validate_sector, List.headD, List.tail_cons, h, Nat.zero_add,
    classify_matrix, TOLERANCE, beq_iff_eq]
  by_cases he : off = e
  · simp only [if_pos he, he, ite_true]
    split_ifs <;> first | rfl | omega
  · simp only [if_neg he, he, ite_false]
    split_ifs <;> first | rfl | omega

/-- Claim C3: the validator seeds the re-derived chain from the offset found
in the sector itself, so the mismatch-count bucket of the classification is a
function of the sector's bytes alone — the same for any two caller-supplied
expected offsets. -/
theorem brew_C3 (rnd : Nat → Nat) (e1 e2 : Nat) (s : List Nat) :
    diag_bucket (validate_sector rnd e1 s) =
      bucket_of (sector_error_count rnd s) ∧
    diag_bucket (validate_sector rnd e1 s) =
      diag_bucket (validate_sector rnd e2 s) := by
  have key : ∀ e : Nat, diag_bucket (validate_sector rnd e s) =
      bucket_of (sector_error_count rnd s) := by
    intro e
    simp only [validate_sector, sector_error_count, found_offset, bucket_of]
    split_ifs <;> rfl
  exact ⟨key e1, (key e1).trans (key e2).symm⟩

/-- Claim C7: the early-exit error count of validate_sector classifies every
sector exactly as the reference validator that counts all mismatching words:
the two validators agree outright, and the early-exit count falls in the same
bucket (0, 1..2, more than 2) as the full count. -/
theorem brew_C7 (rnd : Nat → Nat) (e : Nat) (s : List Nat) :
    validate_sector rnd e s = validate_sector_full rnd e s ∧
    bucket_of (chain_errors rnd (found_offset s) 0 s.tail) =
      bucket_of (count_mismatches rnd (found_offset s) s.tail) := by
  have h := chain_errors_eq_min rnd s.tail (s.headD 0) 0 (by omega)
  constructor
  · simp only [validate_sector, validate_sector_full, classify_matrix, h,
      Nat.zero_add, beq_iff_eq, TOLERANCE]
    by_cases he : s.headD 0 = e
    · simp only [if_pos he, he, ite_true]
      split_ifs <;> first | rfl | omega
    · simp only [if_neg he, he, ite_false]
      split_ifs <;> first | rfl | omega
  · simp only [found_offset, h, Nat.zero_add, bucket_of, TOLERANCE]
    split_ifs <;> first | rfl | omega

theorem count_mismatches_chain (rnd : Nat → Nat) :
    ∀ (n w : Nat), count_mismatches rnd w (chain_words rnd w n) = 0 := by
  intro n
  induction n with
  | zero => intro w; rfl
  | succ m ih =>
    intro w
    simp only [chain_words, count_mismatches, ite_true, Nat.zero_add]
    exact ih (next_rand rnd w)

theorem fill_sector_congr (rnd : Nat → Nat) (a b : Nat)
    (h : a % U64 = b % U64) : fill_sector rnd a = fill_sector rnd b := by
  simp only [fill_sector, h]

theorem fill_buffer_get (rnd : Nat → Nat) :
    ∀ (nsec k o : Nat), k < nsec →
      (fill_buffer rnd nsec o).1.get? k =
        some (fill_sector rnd (o + SECTOR_SIZE * k)) := by
  intro nsec
  induction nsec with
  | zero => intro k o h; omega
  | succ n ih =>
    intro k o h
    cases k with
    | zero =>
      rw [Nat.mul_zero, Nat.add_zero]
      simp only [fill_buffer]
      rfl
    | succ k =>
      have step : (fill_buffer rnd (n + 1) o).1.get? (k + 1) =
          (fill_buffer rnd n ((o + SECTOR_SIZE) % U64)).1.get? k := rfl
      have hsec : fill_sector rnd ((o + SECTOR_SIZE) % U64 + SECTOR_SIZE * k) =
          fill_sector rnd (o + SECTOR_SIZE * (k + 1)) := by
        apply fill_sector_congr
        rw [Nat.mod_add_mod]
        congr 1
        ring
      rw [step, ih k ((o + SECTOR_SIZE) % U64) (by omega), hsec]

theorem fill_buffer_snd (rnd : Nat → Nat) :
    ∀ (nsec o : Nat), o < U64 →
      (fill_buffer rnd nsec o).2 = (o + SECTOR_SIZE * nsec) % U64 := by
  intro nsec
  induction nsec with
  | zero =>
    intro o ho
    simp only [fill_buffer, Nat.mul_zero, Nat.add_zero, Nat.mod_eq_of_lt ho]
  | succ n ih =>
    intro o ho
    have step : (fill_buffer rnd (n + 1) o).2 =
        (fill_buffer rnd n ((o + SECTOR_SIZE) % U64)).2 := rfl
    rw [step, ih ((o + SECTOR_SIZE) % U64) (Nat.mod_lt _ U64_pos)]
    rw [Nat.mod_add_mod]
    congr 1
    ring

theorem validate_fill_sector (rnd : Nat → Nat) (o : Nat) (ho : o < U64) :
    found_offset (fill_sector rnd o) = o ∧
    chain_errors rnd o 0 (fill_sector rnd o).tail = 0 ∧
    validate_sector rnd o (fill_sector rnd o) = Diag.Good := by
  have hmod : o % U64 = o := Nat.mod_eq_of_lt ho
  have hf : found_offset (fill_sector rnd o) = o := by
    simp only [found_offset, fill_sector, List.headD, hmod]
  have hc3 : chain_errors rnd o 0 (chain_words rnd o CHAIN_WORDS) = 0 := by
    rw [chain_errors_eq_min rnd _ o 0 (by omega),
      count_mismatches_chain rnd CHAIN_WORDS o]
    omega
  have hc : chain_errors rnd o 0 (fill_sector rnd o).tail = 0 := by
    simp only [fill_sector, List.tail_cons, hmod]
    exact hc3
  refine ⟨hf, hc, ?_⟩
  simp [validate_sector, fill_sector, hmod, hc3]

/-- Claim C2: round-trip identity.  Every sector that fill_buffer produces
for a starting offset carries that sector's own offset in its first word,
re-validates with zero chain mismatches, and classifies as Good when checked
against the very offset it was generated for. -/
theorem brew_C2 (rnd : Nat → Nat) (nsec o k : Nat) (hk : k < nsec)
    (hov : o + SECTOR_SIZE * nsec < U64) :
    (fill_buffer rnd nsec o).1.get? k =
      some (fill_sector rnd (o + SECTOR_SIZE * k)) ∧
    found_offset (fill_sector rnd (o + SECTOR_SIZE * k)) =
      o + SECTOR_SIZE * k ∧
    chain_errors rnd (o + SECTOR_SIZE * k) 0
      (fill_sector rnd (o + SECTOR_SIZE * k)).tail = 0 ∧
    validate_sector rnd (o + SECTOR_SIZE * k)
      (fill_sector rnd (o + SECTOR_SIZE * k)) = Diag.Good := by
  have hb : o + SECTOR_SIZE * k < U64 := by
    have hmul : SECTOR_SIZE * k ≤ SECTOR_SIZE * nsec :=
      Nat.mul_le_mul_left SECTOR_SIZE (Nat.le_of_lt hk)
    omega
  have hv := validate_fill_sector rnd (o + SECTOR_SIZE * k) hb
  exact ⟨fill_buffer_get rnd nsec k o hk, hv.1, hv.2.1, hv.2.2⟩

theorem brew_C2_witness :
    (fill_buffer (fun n => n + 1) 1 0).1.get? 0 =
      some (fill_sector (fun n => n + 1) (0 + SECTOR_SIZE * 0)) ∧
    found_offset (fill_sector (fun n => n + 1) (0 + SECTOR_SIZE * 0)) =
      0 + SECTOR_SIZE * 0 ∧
    chain_errors (fun n => n + 1) (0 + SECTOR_SIZE * 0) 0
      (fill_sector (fun n => n + 1) (0 + SECTOR_SIZE * 0)).tail = 0 ∧
    validate_sector (fun n => n + 1) (0 + SECTOR_SIZE * 0)
      (fill_sector (fun n => n + 1) (0 + SECTOR_SIZE * 0)) = Diag.Good :=
  brew_C2 (fun n => n + 1) 1 0 0 (by omega)
    (by simp only [SECTOR_SIZE, U64]; omega)

/-- validate_block from f3brew.c: validates each 512-byte sector of a block
in order, advancing the expected sector offset by SECTOR_SIZE per sector
(`uint64_t` arithmetic), and pairs each sector's expected offset with its
classification. -/
def validate_block (rnd : Nat → Nat) (expected : Nat) :
    List (List Nat) → List (Nat × Diag)
  | [] => []
  | s :: rest =>
    (expected, validate_sector rnd expected s) ::
      validate_block rnd ((expected + SECTOR_SIZE) % U64) rest

/-- Outcome of one iteration of the read/validate loop: either the block was
read and validated, or the read failed and was reported with its block index.
Both record the expected sector offset the loop held for the block's first
sector. -/
inductive ReadResult where
  | ok : Nat → List (Nat × Diag) → ReadResult
  | failed : Nat → Nat → ReadResult
deriving DecidableEq

/-- The expected offset of the block's first sector, as tracked by the
`expected_sector_offset` variable of read_blocks. -/
def expected_of : ReadResult → Nat
  | ReadResult.ok e _ => e
  | ReadResult.failed e _ => e

/-- The loop body of read_blocks: for each block index, attempt the device
read (`reads i = some blk` on success, `none` on failure); validate on
success, report on failure; in either case advance the expected offset by the
block size (in `uint64_t` arithmetic) and continue with the next block. -/
def read_loop (rnd : Nat → Nat) (reads : Nat → Option (List (List Nat)))
    (bs e i : Nat) : Nat → List ReadResult
  | 0 => []
  | n + 1 =>
    (match reads i with
     | some blk => ReadResult.ok e (validate_block rnd e blk)
     | none => ReadResult.failed e i) ::
      read_loop rnd reads bs ((e + bs) % U64) (i + 1) n

/-- read_blocks from f3brew.c: walks blocks first..last inclusive, starting
from expected offset `first_block << block_order`, with block size
2^block_order. -/
def read_blocks (rnd : Nat → Nat) (reads : Nat → Option (List (List Nat)))
    (bo first last : Nat) : List ReadResult :=
  read_loop rnd reads (2 ^ bo) ((first <<< bo) % U64) first (last + 1 - first)

theorem read_loop_length (rnd : Nat → Nat)
    (reads : Nat → Option (List (List Nat))) (bs : Nat) :
    ∀ (count e i : Nat), (read_loop rnd reads bs e i count).length = count := by
  intro count
  induction count with
  | zero => intro e i; rfl
  | succ n ih =>
    intro e i
    simp only [read_loop, List.length_cons, ih]

theorem read_loop_map_expected (rnd : Nat → Nat)
    (reads reads' : Nat → Option (List (List Nat))) (bs : Nat) :
    ∀ (count e i : Nat),
      (read_loop rnd reads bs e i count).map expected_of =
        (read_loop rnd reads' bs e i count).map expected_of := by
  intro count
  induction count with
  | zero => intro e i; rfl
  | succ n ih =>
    intro e i
    simp only [read_loop, List.map_cons]
    congr 1
    · cases reads i <;> cases reads' i <;> rfl
    · exact ih ((e + bs) % U64) (i + 1)

theorem read_loop_get (rnd : Nat → Nat)
    (reads : Nat → Option (List (List Nat))) (bs : Nat) :
    ∀ (count k e i : Nat), k < count → e + count * bs < U64 →
      (read_loop rnd reads bs e i count).get? k =
        some (match reads (i + k) with
              | some blk =>
                ReadResult.ok (e + k * bs) (validate_block rnd (e + k * bs) blk)
              | none => ReadResult.failed (e + k * bs) (i + k)) := by
  intro count
  induction count with
  | zero => intro k e i hk _; omega
  | succ n ih =>
    intro k e i hk hov
    have hsucc : (n + 1) * bs = n * bs + bs := Nat.succ_mul n bs
    cases k with
    | zero =>
      rw [Nat.zero_mul, Nat.add_zero, Nat.add_zero]
      rfl
    | succ k =>
      have step : (read_loop rnd reads bs e i (n + 1)).get? (k + 1) =
          (read_loop rnd reads bs ((e + bs) % U64) (i + 1) n).get? k := rfl
      have hm : (e + bs) % U64 = e + bs := Nat.mod_eq_of_lt (by omega)
      have h1 : i + (k + 1) = i + 1 + k := by omega
      have h2 : e + (k + 1) * bs = e + bs + k * bs := by ring
      rw [step, hm, h1, h2]
      exact ih k (e + bs) (i + 1) (by omega) (by omega)

/-- Claim C5: offset monotonicity of the read/validate pass.  The expected
offsets the pass assigns to blocks do not depend on which reads succeed, the
pass visits every block of the range even past failures, block first's first
sector expects offset first << block_order, block (first + k) expects that
plus k block sizes, the next block expects exactly one block size more, and a
failed read of block first + k is recorded as a reported failure carrying
that same expected offset. -/
theorem brew_C5 (rnd : Nat → Nat)
    (reads reads' : Nat → Option (List (List Nat)))
    (bo first last k : Nat) (hk : first + k ≤ last)
    (hov : (last + 1) * 2 ^ bo < U64) :
    (read_blocks rnd reads bo first last).map expected_of =
      (read_blocks rnd reads' bo first last).map expected_of ∧
    (read_blocks rnd reads bo first last).length = last + 1 - first ∧
    ((read_blocks rnd reads bo first last).get? k).map expected_of =
      some (first <<< bo + k * 2 ^ bo) ∧
    ((read_blocks rnd reads bo first last).get? 0).map expected_of =
      some (first <<< bo) ∧
    (first + k + 1 ≤ last →
      ((read_blocks rnd reads bo first last).get? (k + 1)).map expected_of =
        some (first <<< bo + k * 2 ^ bo + 2 ^ bo)) ∧
    (reads (first + k) = none →
      (read_blocks rnd reads bo first last).get? k =
        some (ReadResult.failed (first <<< bo + k * 2 ^ bo) (first + k))) := by
  have hsl : first <<< bo = first * 2 ^ bo := Nat.shiftLeft_eq first bo
  have hfle : first * 2 ^ bo ≤ (last + 1) * 2 ^ bo :=
    Nat.mul_le_mul_right (2 ^ bo) (by omega)
  have hmodE : (first <<< bo) % U64 = first <<< bo := by
    rw [hsl]
    exact Nat.mod_eq_of_lt (by omega)
  have hbound : first <<< bo + (last + 1 - first) * 2 ^ bo < U64 := by
    have hsum : first * 2 ^ bo + (last + 1 - first) * 2 ^ bo =
        (last + 1) * 2 ^ bo := by
      rw [← Nat.add_mul]
      congr 1
      omega
    omega
  have hget : ∀ m, m < last + 1 - first →
      (read_blocks rnd reads bo first last).get? m =
        some (match reads (first + m) with
              | some blk =>
                ReadResult.ok (first <<< bo + m * 2 ^ bo)
                  (validate_block rnd (first <<< bo + m * 2 ^ bo) blk)
              | none =>
                ReadResult.failed (first <<< bo + m * 2 ^ bo) (first + m)) := by
    intro m hm
    have h := read_loop_get rnd reads (2 ^ bo) (last + 1 - first) m
      (first <<< bo) first hm (by omega)
    simp only [read_blocks, hmodE]
    exact h
  refine ⟨?_, ?_, ?_, ?_, ?_, ?_⟩
  · exact read_loop_map_expected rnd reads reads' (2 ^ bo) (last + 1 - first)
      ((first <<< bo) % U64) first
  · exact read_loop_length rnd reads (2 ^ bo) (last + 1 - first)
      ((first <<< bo) % U64) first
  · rw [hget k (by omega)]
    cases reads (first + k) <;> rfl
  · have h0 := hget 0 (by omega)
    rw [Nat.zero_mul, Nat.add_zero, Nat.add_zero] at h0
    rw [h0]
    cases reads first <;> rfl
  · intro hnext
    have hs : first <<< bo + (k + 1) * 2 ^ bo =
        first <<< bo + k * 2 ^ bo + 2 ^ bo := by ring
    rw [hget (k + 1) (by omega), hs]
    cases reads (first + (k + 1)) <;> rfl
  · intro hnone
    rw [hget k (by omega), hnone]


theorem brew_C5_witness :
    (read_blocks (fun n => n + 1) (fun _ => none) 9 0 1).map expected_of =
      (read_blocks (fun n => n + 1) (fun _ => some []) 9 0 1).map
        expected_of ∧
    (read_blocks (fun n => n + 1) (fun _ => none) 9 0 1).length = 1 + 1 - 0 ∧
    ((read_blocks (fun n => n + 1) (fun _ => none) 9 0 1).get? 0).map
      expected_of = some (0 <<< 9 + 0 * 2 ^ 9) ∧
    ((read_blocks (fun n => n + 1) (fun _ => none) 9 0 1).get? 0).map
      expected_of = some (0 <<< 9) ∧
    ((read_blocks (fun n => n + 1) (fun _ => none) 9 0 1).get? (0 + 1)).map
      expected_of = some (0 <<< 9 + 0 * 2 ^ 9 + 2 ^ 9) ∧
    (read_blocks (fun n => n + 1) (fun _ => none) 9 0 1).get? 0 =
      some (ReadResult.failed (0 <<< 9 + 0 * 2 ^ 9) (0 + 0)) := by
  have h := brew_C5 (fun n => n + 1) (fun _ => none) (fun _ => some []) 9 0 1 0
    (by omega) (by norm_num [U64])
  exact ⟨h.1, h.2.1, h.2.2.1, h.2.2.2.1, h.2.2.2.2.1 (by omega),
    h.2.2.2.2.2 rfl⟩

/-- One iteration of write_blocks: the block index, the stamped buffer that
was submitted for it, and whether the device accepted the write (`wr i`);
a false `result` is the reported, non-fatal per-block write failure. -/
structure WriteEvent where
  block : Nat
  buf : List (List Nat)
  result : Bool
deriving DecidableEq

/-- The loop body of write_blocks: fills the buffer for the current block
(threading the running sector offset through fill_buffer's return value),
submits it, and continues with the next block whether or not the device
write succeeded. -/
def write_loop (rnd : Nat → Nat) (wr : Nat → Bool) (nsec e i : Nat) :
    Nat → List WriteEvent
  | 0 => []
  | n + 1 =>
    WriteEvent.mk i (fill_buffer rnd nsec e).1 (wr i) ::
      write_loop rnd wr nsec (fill_buffer rnd nsec e).2 (i + 1) n

/-- write_blocks from f3brew.c: walks blocks first..last inclusive in
ascending order, starting the running sector offset at
`first_block << block_order`, with 2^block_order / 512 sectors per block. -/
def write_blocks (rnd : Nat → Nat) (wr : Nat → Bool)
    (bo first last : Nat) : List WriteEvent :=
  write_loop rnd wr (2 ^ bo / SECTOR_SIZE) ((first <<< bo) % U64) first
    (last + 1 - first)

theorem write_loop_length (rnd : Nat → Nat) (wr : Nat → Bool) (nsec : Nat) :
    ∀ (count e i : Nat), (write_loop rnd wr nsec e i count).length = count := by
  intro count
  induction count with
  | zero => intro e i; rfl
  | succ n ih =>
    intro e i
    simp only [write_loop, List.length_cons, ih]

theorem write_loop_map_content (rnd : Nat → Nat) (wr wr' : Nat → Bool)
    (nsec : Nat) :
    ∀ (count e i : Nat),
      (write_loop rnd wr nsec e i count).map (fun ev => (ev.block, ev.buf)) =
        (write_loop rnd wr' nsec e i count).map
          (fun ev => (ev.block, ev.buf)) := by
  intro count
  induction count with
  | zero => intro e i; rfl
  | succ n ih =>
    intro e i
    simp only [write_loop, List.map_cons]
    congr 1
    exact ih (fill_buffer rnd nsec e).2 (i + 1)

theorem write_loop_get_result (rnd : Nat → Nat) (wr : Nat → Bool)
    (nsec : Nat) :
    ∀ (count k e i : Nat), k < count →
      ((write_loop rnd wr nsec e i count).get? k).map WriteEvent.result =
        some (wr (i + k)) := by
  intro count
  induction count with
  | zero => intro k e i hk; omega
  | succ n ih =>
    intro k e i hk
    cases k with
    | zero =>
      rw [Nat.add_zero]
      rfl
    | succ k =>
      have step : ((write_loop rnd wr nsec e i (n + 1)).get? (k + 1)).map
            WriteEvent.result =
          ((write_loop rnd wr nsec (fill_buffer rnd nsec e).2 (i + 1)
            n).get? k).map WriteEvent.result := rfl
      have h1 : i + (k + 1) = i + 1 + k := by omega
      rw [step, h1]
      exact ih k (fill_buffer rnd nsec e).2 (i + 1) (by omega)

theorem write_loop_get (rnd : Nat → Nat) (wr : Nat → Bool) (nsec : Nat) :
    ∀ (count k e i : Nat), k < count → e + count * (SECTOR_SIZE * nsec) < U64 →
      (write_loop rnd wr nsec e i count).get? k =
        some (WriteEvent.mk (i + k)
          (fill_buffer rnd nsec (e + k * (SECTOR_SIZE * nsec))).1
          (wr (i + k))) := by
  intro count
  induction count with
  | zero => intro k e i hk _; omega
  | succ n ih =>
    intro k e i hk hov
    have hsucc : (n + 1) * (SECTOR_SIZE * nsec) =
        n * (SECTOR_SIZE * nsec) + SECTOR_SIZE * nsec :=
      Nat.succ_mul n (SECTOR_SIZE * nsec)
    have he : e < U64 := by omega
    have hsnd : (fill_buffer rnd nsec e).2 = e + SECTOR_SIZE * nsec := by
      rw [fill_buffer_snd rnd nsec e he]
      exact Nat.mod_eq_of_lt (by omega)
    cases k with
    | zero =>
      rw [Nat.zero_mul, Nat.add_zero, Nat.add_zero]
      rfl
    | succ k =>
      have step : (write_loop rnd wr nsec e i (n + 1)).get? (k + 1) =
          (write_loop rnd wr nsec (fill_buffer rnd nsec e).2 (i + 1)
            n).get? k := rfl
      have h1 : i + (k + 1) = i + 1 + k := by omega
      have h2 : e + (k + 1) * (SECTOR_SIZE * nsec) =
          e + SECTOR_SIZE * nsec + k * (SECTOR_SIZE * nsec) := by ring
      rw [step, hsnd, h1, h2]
      exact ih k (e + SECTOR_SIZE * nsec) (i + 1) (by omega) (by omega)

/-- Claim C6: in the write pass, fill_buffer returns its starting offset plus
the buffer size (so the returned value can be threaded across blocks), blocks
are visited in ascending order (entry k of the pass is block first + k), and
the buffer submitted for block first + k is exactly the pattern whose first
sector offset is (first + k) << block_order, i.e. threading fill_buffer's
return value agrees with recomputing block_index << block_order per block. -/
theorem brew_C6 (rnd : Nat → Nat) (wr : Nat → Bool)
    (bo first last k nsec o : Nat) (hbo : 9 ≤ bo) (hk : first + k ≤ last)
    (hov : (last + 1) * 2 ^ bo < U64) (ho : o + SECTOR_SIZE * nsec < U64) :
    (fill_buffer rnd nsec o).2 = o + SECTOR_SIZE * nsec ∧
    ((write_blocks rnd wr bo first last).get? k).map WriteEvent.block =
      some (first + k) ∧
    ((write_blocks rnd wr bo first last).get? k).map WriteEvent.buf =
      some ((fill_buffer rnd (2 ^ bo / SECTOR_SIZE) ((first + k) <<< bo)).1) := by
  have hret : (fill_buffer rnd nsec o).2 = o + SECTOR_SIZE * nsec := by
    rw [fill_buffer_snd rnd nsec o (by omega)]
    exact Nat.mod_eq_of_lt ho
  have hdvd : SECTOR_SIZE ∣ 2 ^ bo := by
    have h9 : SECTOR_SIZE = 2 ^ 9 := by norm_num [SECTOR_SIZE]
    rw [h9]
    exact pow_dvd_pow 2 hbo
  have hdiv : SECTOR_SIZE * (2 ^ bo / SECTOR_SIZE) = 2 ^ bo :=
    Nat.mul_div_cancel' hdvd
  have hsl : first <<< bo = first * 2 ^ bo := Nat.shiftLeft_eq first bo
  have hfle : first * 2 ^ bo ≤ (last + 1) * 2 ^ bo :=
    Nat.mul_le_mul_right (2 ^ bo) (by omega)
  have hmodE : (first <<< bo) % U64 = first <<< bo := by
    rw [hsl]
    exact Nat.mod_eq_of_lt (by omega)
  have hsum : first * 2 ^ bo + (last + 1 - first) * 2 ^ bo =
      (last + 1) * 2 ^ bo := by
    rw [← Nat.add_mul]
    congr 1
    omega
  have hbound : first <<< bo +
      (last + 1 - first) * (SECTOR_SIZE * (2 ^ bo / SECTOR_SIZE)) < U64 := by
    rw [hdiv, hsl]
    omega
  have hget := write_loop_get rnd wr (2 ^ bo / SECTOR_SIZE) (last + 1 - first)
    k (first <<< bo) first (by omega) hbound
  have hwb : (write_blocks rnd wr bo first last).get? k =
      some (WriteEvent.mk (first + k)
        (fill_buffer rnd (2 ^ bo / SECTOR_SIZE)
          (first <<< bo + k * (SECTOR_SIZE * (2 ^ bo / SECTOR_SIZE)))).1
        (wr (first + k))) := by
    simp only [write_blocks, hmodE]
    exact hget
  have harg : first <<< bo + k * (SECTOR_SIZE * (2 ^ bo / SECTOR_SIZE)) =
      (first + k) <<< bo := by
    rw [hdiv, hsl, Nat.shiftLeft_eq (first + k) bo]
    ring
  refine ⟨hret, ?_, ?_⟩
  · rw [hwb]
    rfl
  · rw [hwb, harg]
    rfl

theorem brew_C6_witness :
    (fill_buffer (fun n => n + 1) 1 0).2 = 0 + SECTOR_SIZE * 1 ∧
    ((write_blocks (fun n => n + 1) (fun _ => true) 9 0 0).get? 0).map
      WriteEvent.block = some (0 + 0) ∧
    ((write_blocks (fun n => n + 1) (fun _ => true) 9 0 0).get? 0).map
      WriteEvent.buf =
      some ((fill_buffer (fun n => n + 1) (2 ^ 9 / SECTOR_SIZE)
        ((0 + 0) <<< 9)).1) :=
  brew_C6 (fun n => n + 1) (fun _ => true) 9 0 0 0 1 0 (by omega) (by omega)
    (by norm_num [U64]) (by norm_num [SECTOR_SIZE, U64])

/-- Claim C8: write-failure resilience.  The blocks visited and the stamped
buffers submitted by the write pass are identical under any two
success/failure behaviours of the device, the pass always attempts all
last - first + 1 blocks of the range, and the entry for block first + k
records exactly that block's own write result (a failure is reported there
and nowhere else). -/
theorem brew_C8 (rnd : Nat → Nat) (wr wr' : Nat → Bool)
    (bo first last k : Nat) (hk : first + k ≤ last) :
    (write_blocks rnd wr bo first last).map (fun ev => (ev.block, ev.buf)) =
      (write_blocks rnd wr' bo first last).map
        (fun ev => (ev.block, ev.buf)) ∧
    (write_blocks rnd wr bo first last).length = last + 1 - first ∧
    ((write_blocks rnd wr bo first last).get? k).map WriteEvent.result =
      some (wr (first + k)) := by
  refine ⟨?_, ?_, ?_⟩
  · exact write_loop_map_content rnd wr wr' (2 ^ bo / SECTOR_SIZE)
      (last + 1 - first) ((first <<< bo) % U64) first
  · exact write_loop_length rnd wr (2 ^ bo / SECTOR_SIZE) (last + 1 - first)
      ((first <<< bo) % U64) first
  · exact write_loop_get_result rnd wr (2 ^ bo / SECTOR_SIZE)
      (last + 1 - first) k ((first <<< bo) % U64) first (by omega)

theorem brew_C8_witness :
    (write_blocks (fun n => n + 1) (fun _ => false) 9 0 0).map
      (fun ev => (ev.block, ev.buf)) =
      (write_blocks (fun n => n + 1) (fun _ => true) 9 0 0).map
        (fun ev => (ev.block, ev.buf)) ∧
    (write_blocks (fun n => n + 1) (fun _ => false) 9 0 0).length =
      0 + 1 - 0 ∧
    ((write_blocks (fun n => n + 1) (fun _ => false) 9 0 0).get? 0).map
      WriteEvent.result = some false :=
  brew_C8 (fun n => n + 1) (fun _ => false) (fun _ => true) 9 0 0 0 (by omega)

/-- The range clamping of main (f3brew.c): very_last_block is
size_byte >> block_order, and each of first_block and last_block is lowered
to very_last_block when it exceeds it. -/
def clamp_range (size_byte bo first last : Nat) : Nat × Nat :=
  let very_last_block := size_byte >>> bo
  (if very_last_block < first then very_last_block else first,
   if very_last_block < last then very_last_block else last)

/-- Claim C4 exhibit: main clamps to size_byte >> block_order — the block
COUNT — not to block_count - 1.  With size_byte = 1024 and block_order = 9
the device has 2 blocks (valid indices 0 and 1), yet a requested
last_block = 10 is clamped to 2 and the scan then visits block 2, one past
the last valid block, instead of stopping at block_count - 1 = 1. -/
theorem brew_C4 :
    (clamp_range 1024 9 0 10).2 = 1024 >>> 9 ∧
    1024 >>> 9 - 1 < (clamp_range 1024 9 0 10).2 ∧
    (write_blocks (fun n => n) (fun _ => true) 9 0
        (clamp_range 1024 9 0 10).2).map WriteEvent.block = [0, 1, 2] := by
  refine ⟨by decide, by decide, ?_⟩
  rfl

/-- A device operation main can issue: a block write, the drive reset, or a
block read. -/
inductive Ev where
  | write : Nat → Ev
  | reset : Ev
  | read : Nat → Ev
deriving DecidableEq

/-- The device writes the write pass issues: blocks first..last ascending. -/
def write_evs (first last : Nat) : List Ev :=
  (List.range (last + 1 - first)).map (fun k => Ev.write (first + k))

/-- The device reads the read/validate pass issues: blocks first..last
ascending. -/
def read_evs (first last : Nat) : List Ev :=
  (List.range (last + 1 - first)).map (fun k => Ev.read (first + k))

/-- The device-operation trace of a full probe: all writes, then the reset,
then all reads. -/
def probe_trace (first last : Nat) : List Ev :=
  write_evs first last ++ Ev.reset :: read_evs first last

/-- The probe driver of main (f3brew.c):
`if (test_write) write pass; if (test_write && test_read) assert(!dev_reset);
if (test_read) read pass`.  Returns the trace of device operations issued;
when the reset is issued and fails, `assert` aborts the program, modelled as
an `error` carrying the operations issued up to and including the failed
reset — no read is ever issued after a failed reset. -/
def main_run (tw tr resetOk : Bool) (first last : Nat) :
    Except (List Ev) (List Ev) :=
  let ws := if tw then write_evs first last else []
  let rs := if tr then read_evs first last else []
  if tw && tr then
    if resetOk then Except.ok (ws ++ Ev.reset :: rs)
    else Except.error (ws ++ [Ev.reset])
  else Except.ok (ws ++ rs)

/-- The operations a run issued, whether it completed or aborted. -/
def trace_of : Except (List Ev) (List Ev) → List Ev
  | Except.ok t => t
  | Except.error t => t

/-- Whether an event is a device read. -/
def is_read : Ev → Bool
  | Ev.read _ => true
  | _ => false

/-- Whether a trace contains the device reset. -/
def has_reset : List Ev → Bool
  | [] => false
  | Ev.reset :: _ => true
  | _ :: t => has_reset t

/-- The two behaviour flags of the argument parser: both default to true,
option -W (do-not-write) clears test_write, option -R (do-not-read) clears
test_read. -/
structure Args where
  test_write : Bool
  test_read : Bool
deriving DecidableEq

/-- The defaults main starts from: both passes enabled. -/
def default_args : Args := Args.mk true true

/-- parse_opt case 'W' (--do-not-write). -/
def opt_do_not_write (a : Args) : Args := Args.mk false a.test_read

/-- parse_opt case 'R' (--do-not-read). -/
def opt_do_not_read (a : Args) : Args := Args.mk a.test_write false

theorem mem_write_evs (first last : Nat) (e : Ev)
    (h : e ∈ write_evs first last) : ∃ n, e = Ev.write n := by
  simp only [write_evs, List.mem_map, List.mem_range] at h
  obtain ⟨k, _, hk⟩ := h
  exact ⟨first + k, hk.symm⟩

theorem mem_read_evs (first last : Nat) (e : Ev)
    (h : e ∈ read_evs first last) : ∃ n, e = Ev.read n := by
  simp only [read_evs, List.mem_map, List.mem_range] at h
  obtain ⟨k, _, hk⟩ := h
  exact ⟨first + k, hk.symm⟩

theorem get_append_left {α : Type} :
    ∀ (l₁ l₂ : List α) (j : Nat), j < l₁.length →
      (l₁ ++ l₂).get? j = l₁.get? j := by
  intro l₁
  induction l₁ with
  | nil => intro l₂ j h; simp at h
  | cons a t ih =>
    intro l₂ j h
    cases j with
    | zero => rfl
    | succ j =>
      have : (a :: t ++ l₂).get? (j + 1) = (t ++ l₂).get? j := rfl
      rw [this, ih l₂ j (by simpa using h)]
      rfl

theorem get_append_right {α : Type} :
    ∀ (l₁ l₂ : List α) (j : Nat), l₁.length ≤ j →
      (l₁ ++ l₂).get? j = l₂.get? (j - l₁.length) := by
  intro l₁
  induction l₁ with
  | nil => intro l₂ j h; rfl
  | cons a t ih =>
    intro l₂ j h
    cases j with
    | zero => simp at h
    | succ j =>
      have step : (a :: t ++ l₂).get? (j + 1) = (t ++ l₂).get? j := rfl
      rw [step, ih l₂ j (by simpa using h)]
      congr 1
      simp only [List.length_cons]
      omega

theorem get_mem {α : Type} :
    ∀ (l : List α) (j : Nat) (x : α), l.get? j = some x → x ∈ l := by
  intro l
  induction l with
  | nil => intro j x h; simp [List.get?] at h
  | cons a t ih =>
    intro j x h
    cases j with
    | zero =>
      have : some a = some x := h
      simp only [Option.some_inj] at this
      exact this ▸ List.mem_cons_self a t
    | succ j => exact List.mem_cons_of_mem a (ih j x h)

theorem probe_trace_reset_pos (first last j : Nat)
    (h : (probe_trace first last).get? j = some Ev.reset) :
    j = (write_evs first last).length := by
  by_cases hlt : j < (write_evs first last).length
  · exfalso
    rw [probe_trace, get_append_left _ _ j hlt] at h
    obtain ⟨n, hn⟩ := mem_write_evs first last Ev.reset
      (get_mem _ j Ev.reset h)
    exact Ev.noConfusion hn
  · by_cases heq : j = (write_evs first last).length
    · exact heq
    · exfalso
      have hge : (write_evs first last).length + 1 ≤ j := by omega
      rw [probe_trace, get_append_right _ _ j (by omega)] at h
      have hone : (Ev.reset :: read_evs first last).get?
          (j - (write_evs first last).length) =
          (read_evs first last).get?
            (j - (write_evs first last).length - 1) := by
        have : ∃ m, j - (write_evs first last).length = m + 1 :=
          ⟨j - (write_evs first last).length - 1, by omega⟩
        obtain ⟨m, hm⟩ := this
        rw [hm]
        rfl
      rw [hone] at h
      obtain ⟨n, hn⟩ := mem_read_evs first last Ev.reset
        (get_mem _ _ Ev.reset h)
      exact Ev.noConfusion hn

theorem probe_trace_write_pos (first last j i : Nat)
    (h : (probe_trace first last).get? j = some (Ev.write i)) :
    j < (write_evs first last).length := by
  by_cases hlt : j < (write_evs first last).length
  · exact hlt
  · exfalso
    rw [probe_trace, get_append_right _ _ j (by omega)] at h
    by_cases hz : j - (write_evs first last).length = 0
    · rw [hz] at h
      have : some Ev.reset = some (Ev.write i) := h
      simp only [Option.some_inj] at this
      exact Ev.noConfusion this
    · have hone : (Ev.reset :: read_evs first last).get?
          (j - (write_evs first last).length) =
          (read_evs first last).get?
            (j - (write_evs first last).length - 1) := by
        obtain ⟨m, hm⟩ : ∃ m, j - (write_evs first last).length = m + 1 :=
          ⟨j - (write_evs first last).length - 1, by omega⟩
        rw [hm]
        rfl
      rw [hone] at h
      obtain ⟨n, hn⟩ := mem_read_evs first last (Ev.write i)
        (get_mem _ _ _ h)
      exact Ev.noConfusion hn

theorem probe_trace_read_pos (first last j i : Nat)
    (h : (probe_trace first last).get? j = some (Ev.read i)) :
    (write_evs first last).length < j := by
  by_cases hlt : j < (write_evs first last).length
  · exfalso
    rw [probe_trace, get_append_left _ _ j hlt] at h
    obtain ⟨n, hn⟩ := mem_write_evs first last (Ev.read i)
      (get_mem _ j _ h)
    exact Ev.noConfusion hn
  · by_cases heq : j = (write_evs first last).length
    · exfalso
      subst heq
      rw [probe_trace, get_append_right _ _ _ (by omega)] at h
      rw [Nat.sub_self] at h
      have : some Ev.reset = some (Ev.read i) := h
      simp only [Option.some_inj] at this
      exact Ev.noConfusion this
    · omega

theorem has_reset_of_no (l : List Ev) (h : ∀ e ∈ l, e ≠ Ev.reset) :
    has_reset l = false := by
  induction l with
  | nil => rfl
  | cons a t ih =>
    cases a with
    | write n =>
      have step : has_reset (Ev.write n :: t) = has_reset t := rfl
      rw [step]
      exact ih (fun e he => h e (List.mem_cons_of_mem _ he))
    | reset => exact absurd rfl (h Ev.reset (List.mem_cons_self _ _))
    | read n =>
      have step : has_reset (Ev.read n :: t) = has_reset t := rfl
      rw [step]
      exact ih (fun e he => h e (List.mem_cons_of_mem _ he))

theorem has_reset_write_evs (first last : Nat) :
    has_reset (write_evs first last) = false := by
  apply has_reset_of_no
  intro e he hcontra
  obtain ⟨n, hn⟩ := mem_write_evs first last e he
  rw [hn] at hcontra
  exact Ev.noConfusion hcontra

theorem has_reset_read_evs (first last : Nat) :
    has_reset (read_evs first last) = false := by
  apply has_reset_of_no
  intro e he hcontra
  obtain ⟨n, hn⟩ := mem_read_evs first last e he
  rw [hn] at hcontra
  exact Ev.noConfusion hcontra

theorem has_reset_append :
    ∀ (l₁ l₂ : List Ev),
      has_reset (l₁ ++ l₂) = (has_reset l₁ || has_reset l₂) := by
  intro l₁ l₂
  induction l₁ with
  | nil => rfl
  | cons a t ih =>
    cases a with
    | write n =>
      have h1 : has_reset ((Ev.write n :: t) ++ l₂) =
          has_reset (t ++ l₂) := rfl
      have h2 : has_reset (Ev.write n :: t) = has_reset t := rfl
      rw [h1, ih, h2]
    | reset => rfl
    | read n =>
      have h1 : has_reset ((Ev.read n :: t) ++ l₂) =
          has_reset (t ++ l₂) := rfl
      have h2 : has_reset (Ev.read n :: t) = has_reset t := rfl
      rw [h1, ih, h2]

/-- Claim C9: when both passes run, the probe issues all device writes, then
the one reset, then all device reads — every write sits strictly before the
reset in the trace and the reset strictly before every read — and a failed
reset is fatal: the run aborts having issued only the writes and the failed
reset, never a read. -/
theorem brew_C9 (first last j k k2 i i2 : Nat)
    (h1 : (probe_trace first last).get? j = some (Ev.write i))
    (h2 : (probe_trace first last).get? k = some Ev.reset)
    (h3 : (probe_trace first last).get? k2 = some (Ev.read i2)) :
    main_run true true true first last = Except.ok (probe_trace first last) ∧
    j < k ∧ k < k2 ∧
    main_run true true false first last =
      Except.error (write_evs first last ++ [Ev.reset]) ∧
    (write_evs first last ++ [Ev.reset]).all (fun e => !(is_read e)) =
      true := by
  have hw := probe_trace_write_pos first last j i h1
  have hr := probe_trace_reset_pos first last k h2
  have hd := probe_trace_read_pos first last k2 i2 h3
  refine ⟨rfl, by omega, by omega, rfl, ?_⟩
  rw [List.all_eq_true]
  intro e he
  rw [List.mem_append] at he
  cases he with
  | inl hin =>
    obtain ⟨n, hn⟩ := mem_write_evs first last e hin
    rw [hn]
    rfl
  | inr hin =>
    rw [List.mem_singleton] at hin
    rw [hin]
    rfl

theorem brew_C9_witness :
    main_run true true true 0 0 = Except.ok (probe_trace 0 0) ∧
    0 < 1 ∧ 1 < 2 ∧
    main_run true true false 0 0 =
      Except.error (write_evs 0 0 ++ [Ev.reset]) ∧
    (write_evs 0 0 ++ [Ev.reset]).all (fun e => !(is_read e)) = true :=
  brew_C9 0 0 0 1 2 0 0 (by decide) (by decide) (by decide)

/-- Claim C10: the reset appears in the trace exactly when both the write
pass and the read pass are enabled; with --do-not-write the probe completes
as a pure read pass with no reset ever issued, and with --do-not-read it
completes as a pure write pass, again with no reset. -/
theorem brew_C10 (tw tr resetOk : Bool) (first last : Nat) :
    has_reset (trace_of (main_run tw tr resetOk first last)) = (tw && tr) ∧
    main_run (opt_do_not_write default_args).test_write
      (opt_do_not_write default_args).test_read resetOk first last =
      Except.ok (read_evs first last) ∧
    main_run (opt_do_not_read default_args).test_write
      (opt_do_not_read default_args).test_read resetOk first last =
      Except.ok (write_evs first last) := by
  have hwf := has_reset_write_evs first last
  have hrf := has_reset_read_evs first last
  refine ⟨?_, ?_, ?_⟩
  · cases tw <;> cases tr <;> cases resetOk <;>
      simp [main_run, trace_of, has_reset_append, hwf, hrf, has_reset]
  · rfl
  · simp [main_run, opt_do_not_read, default_args]
